import Mathlib

/-!
Verification of the core of the `featurevis` MEI-generation package.

The repository's core is an iterative gradient-ascent loop: an optimization
step engine (class `MEI` in `featurevis/optimization.py`), a driver
(`optimize` in the same module) and a family of stopping policies
(`featurevis/stoppers.py`).  The surrounding integration helpers live in
`featurevis/integration.py` (`ModelLoader`, `hash_list_of_dictionaries`,
`EnsembleModel`).

The optimization module and the stoppers module themselves are not among the
available sources; only their unit tests (`tests/unit_tests/test_optimization.py`,
`tests/test_stoppers.py`) are.  Their embeddings below are therefore modelled
from the specification, as recorded in each doc comment.  The integration
helpers are embedded directly from `featurevis/integration.py`.

Externally supplied collaborators (scoring function, optimizer, transform,
tensor operations, the `make_hash` utility) are opaque in the code and are
modelled as pure function parameters.  Side effects on collaborators are made
observable through explicit event traces.
-/

namespace Featurevis

/-! ## Stopping policies (`featurevis/stoppers.py`, modelled from the spec) -/

/-- Modelled from the spec: `featurevis/stoppers.py` is not among the sources.
Per spec §4.3, the Iteration-Count Policy `NumIterations(num_iterations)`
keeps an internal call counter starting at 0; each call receives a context
object and the latest evaluation and ignores both: if the counter is less
than `num_iterations` it increments the counter and returns `false` (keep
optimizing); once the counter has reached `num_iterations` it returns `true`
(stop) and leaves the counter unchanged.  The call returns the boolean
together with the updated counter. -/
def NumIterations.call {Ctx E : Type} (num_iterations : Nat) (counter : Nat)
    (_ctx : Ctx) (_evaluation : E) : Bool × Nat :=
  if counter < num_iterations then (false, counter + 1) else (true, counter)

/-- Runs an Iteration-Count Policy with counter state `counter` on a list of
`(context, evaluation)` call arguments, returning the list of booleans the
policy returned, in call order. -/
def NumIterations.run {Ctx E : Type} (num_iterations : Nat) (counter : Nat) :
    List (Ctx × E) → List Bool
  | [] => []
  | (c, e) :: rest =>
      let r := NumIterations.call num_iterations counter c e
      r.1 :: NumIterations.run num_iterations r.2 rest

theorem NumIterations.run_getD {Ctx E : Type} (num_iterations : Nat) :
    ∀ (inputs : List (Ctx × E)) (counter j : Nat), j < inputs.length →
      (NumIterations.run num_iterations counter inputs).getD j false =
        decide (num_iterations ≤ counter + j)
  | [], _, j, hj => absurd hj (by simp)
  | (c, e) :: rest, counter, 0, _ => by
      by_cases h : counter < num_iterations
      · simp [NumIterations.run, NumIterations.call, h, Nat.not_le_of_lt h]
      · simp [NumIterations.run, NumIterations.call, h, Nat.le_of_not_lt h]
  | (c, e) :: rest, counter, j + 1, hj => by
      have hj' : j < rest.length := Nat.lt_of_succ_lt_succ (by simpa using hj)
      simp only [NumIterations.run, NumIterations.call, List.getD_cons_succ]
      by_cases h : counter < num_iterations
      · rw [if_pos h, NumIterations.run_getD num_iterations rest (counter + 1) j hj']
        simp only [decide_eq_decide]
        omega
      · rw [if_neg h, NumIterations.run_getD num_iterations rest counter j hj']
        have hc : num_iterations ≤ counter := Nat.le_of_not_lt h
        simp only [decide_eq_decide]
        omega

/-- C2: for every non-negative integer `n`, a fresh `NumIterations(n)` policy
(counter starting at 0) returns `false` on each of its first `n` calls and
`true` on every later call, whatever context objects and evaluation values the
calls pass in; the `j`-th result (0-indexed) is `true` exactly when `n ≤ j`.
In particular `NumIterations(0)` returns `true` on the very first call. -/
theorem numIterations_false_n_times_then_true {Ctx E : Type}
    (n : Nat) (inputs : List (Ctx × E)) (j : Nat) (hj : j < inputs.length) :
    (NumIterations.run n 0 inputs).getD j false = decide (n ≤ j) := by
  have := NumIterations.run_getD n inputs 0 j hj
  simpa using this

theorem numIterations_false_n_times_then_true_witness :
    (0 : Nat) < 3 ∧
      (@NumIterations.run Unit Int 2 0
          [((), 5), ((), 7), ((), 9)]).getD 0 false = decide ((2 : Nat) ≤ 0) ∧
      (@NumIterations.run Unit Int 2 0
          [((), 5), ((), 7), ((), 9)]).getD 2 false = decide ((2 : Nat) ≤ 2) ∧
      (@NumIterations.run Unit Int 0 0
          [((), 5)]).getD 0 false = decide ((0 : Nat) ≤ 0) :=
  ⟨by decide,
   numIterations_false_n_times_then_true 2 [((), 5), ((), 7), ((), 9)] 0 (by decide),
   numIterations_false_n_times_then_true 2 [((), 5), ((), 7), ((), 9)] 2 (by decide),
   numIterations_false_n_times_then_true 0 [((), 5)] 0 (by decide)⟩

/-! ## Optimization driver (`featurevis/optimization.py`, modelled from the spec)

The driver `optimize(mei, optimized)` is modelled over an abstract engine
interface — in the unit tests the engine passed to `optimize` is an opaque
mock — together with a stateful stopping policy.  Every external call the
driver makes is recorded in an event trace so that call counts, call order and
call arguments are observable. -/

/-- Events recorded while `optimize` runs: a call of `engine.step` with its
iteration index and the evaluation it returned, a call of the stopping policy
with the evaluation it received and the boolean it returned, and a call of
`engine.get_mei`. -/
inductive DrvEvent (E : Type) where
  | stepCall (i : Nat) (evaluation : E)
  | polCall (evaluation : E) (result : Bool)
  | getMeiCall
deriving DecidableEq, Repr

/-- Abstract interface of the step engine as the driver uses it: `step` maps
the engine state and an iteration index to an evaluation and the successor
engine state, `item` extracts the plain numeric value of an evaluation, and
`get_mei` reads the finalized candidate off the engine state. -/
structure DriverEngine (S E V M : Type) where
  step : S → Nat → E × S
  item : E → V
  get_mei : S → M

/-- Iteration indices of the `engine.step` calls recorded in a trace, in call
order. -/
def stepIndices {E : Type} (tr : List (DrvEvent E)) : List Nat :=
  tr.filterMap fun ev =>
    match ev with
    | DrvEvent.stepCall i _ => some i
    | _ => none

/-- Evaluations returned by the `engine.step` calls recorded in a trace, in
call order. -/
def stepEvals {E : Type} (tr : List (DrvEvent E)) : List E :=
  tr.filterMap fun ev =>
    match ev with
    | DrvEvent.stepCall _ e => some e
    | _ => none

/-- Booleans returned by the stopping-policy calls recorded in a trace, in
call order. -/
def polResults {E : Type} (tr : List (DrvEvent E)) : List Bool :=
  tr.filterMap fun ev =>
    match ev with
    | DrvEvent.polCall _ b => some b
    | _ => none

/-- Number of `engine.get_mei` calls recorded in a trace. -/
def numGetMeiCalls {E : Type} (tr : List (DrvEvent E)) : Nat :=
  tr.countP fun ev =>
    match ev with
    | DrvEvent.getMeiCall => true
    | _ => false

/-- Engine state reached from `σ` after replaying `engine.step` on each of the
given iteration indices in order. -/
def replaySteps {S E V M : Type} (eng : DriverEngine S E V M) (σ : S)
    (idxs : List Nat) : S :=
  idxs.foldl (fun σ i => (eng.step σ i).2) σ

/-- Modelled from the spec: `featurevis/optimization.py` is not among the
sources.  Per spec §4.2 the driver loop body is: (1) obtain
`evaluation = engine.step(i)`, (2) ask the stopping policy with the engine and
that evaluation, (3) if the policy said to keep going, increment `i` and
repeat; if it said to stop, exit the loop.  Recursion is fuel-bounded because
a policy that never returns true makes the Python loop run forever; `none`
means the fuel ran out before the policy stopped the loop.  On success the
result carries the event trace of the loop, the last evaluation and the final
engine state. -/
def optimizeLoop {S E V M P : Type} (eng : DriverEngine S E V M)
    (pol : P → S → E → Bool × P) :
    Nat → S → P → Nat → Option (List (DrvEvent E) × E × S)
  | 0, _, _, _ => none
  | fuel + 1, σ, p, i =>
      let r := eng.step σ i
      let q := pol p r.2 r.1
      if q.1 then
        some ([DrvEvent.stepCall i r.1, DrvEvent.polCall r.1 true], r.1, r.2)
      else
        match optimizeLoop eng pol fuel r.2 q.2 (i + 1) with
        | none => none
        | some (tr, ef, σf) =>
            some (DrvEvent.stepCall i r.1 :: DrvEvent.polCall r.1 false :: tr,
              ef, σf)

/-- Modelled from the spec: per spec §4.2, `optimize(engine, policy)` runs the
loop starting at iteration index 0 and, after the loop exits, returns the pair
of the plain numeric value of the last evaluation and the finalized candidate
from `engine.get_mei()`.  The returned trace extends the loop trace with the
single `get_mei` call. -/
def optimize {S E V M P : Type} (eng : DriverEngine S E V M)
    (pol : P → S → E → Bool × P) (fuel : Nat) (σ₀ : S) (p₀ : P) :
    Option (List (DrvEvent E) × V × M) :=
  match optimizeLoop eng pol fuel σ₀ p₀ 0 with
  | none => none
  | some (tr, ef, σf) =>
      some (tr ++ [DrvEvent.getMeiCall], eng.item ef, eng.get_mei σf)

/-- Shape of a successful driver-loop trace: one `step` call for each recorded
evaluation, at consecutive iteration indices starting at `i`, each immediately
followed by one stopping-policy call, the policy returning `false` everywhere
except on the last call. -/
def loopTrace {E : Type} (i : Nat) : List E → List (DrvEvent E)
  | [] => []
  | e :: rest =>
      DrvEvent.stepCall i e :: DrvEvent.polCall e rest.isEmpty ::
        loopTrace (i + 1) rest

theorem stepIndices_loopTrace {E : Type} :
    ∀ (es : List E) (i : Nat), stepIndices (loopTrace i es) = List.range' i es.length
  | [], _ => rfl
  | e :: rest, i => by
      simp [loopTrace, stepIndices, List.range'] at *
      simpa [stepIndices] using stepIndices_loopTrace rest (i + 1)

theorem stepEvals_loopTrace {E : Type} :
    ∀ (es : List E) (i : Nat), stepEvals (loopTrace i es) = es
  | [], _ => rfl
  | e :: rest, i => by
      simp [loopTrace, stepEvals] at *
      simpa [stepEvals] using stepEvals_loopTrace rest (i + 1)

theorem polResults_loopTrace {E : Type} :
    ∀ (es : List E) (i : Nat), es ≠ [] →
      polResults (loopTrace i es) = List.replicate (es.length - 1) false ++ [true]
  | [], _, h => absurd rfl h
  | [e], i, _ => rfl
  | e :: e' :: rest, i, _ => by
      have ih := polResults_loopTrace (e' :: rest) (i + 1) (by simp)
      simp only [loopTrace, polResults, List.filterMap_cons] at ih ⊢
      simp only [List.isEmpty_cons] at *
      rw [ih]
      simp [List.replicate_succ]

theorem numGetMeiCalls_loopTrace {E : Type} :
    ∀ (es : List E) (i : Nat), numGetMeiCalls (loopTrace i es) = 0
  | [], _ => rfl
  | e :: rest, i => by
      simp only [loopTrace, numGetMeiCalls, List.countP_cons] at *
      simpa [numGetMeiCalls] using numGetMeiCalls_loopTrace rest (i + 1)

theorem getLast?_cons_of_ne {α : Type} (a : α) :
    ∀ l : List α, l ≠ [] → (a :: l).getLast? = l.getLast?
  | [], h => absurd rfl h
  | _ :: _, _ => List.getLast?_cons_cons

/-- Every successful run of the driver loop produces a trace of the shape
`loopTrace i es` for the nonempty list `es` of step evaluations; the last
evaluation is the one the loop returns, and the final engine state is the one
reached by replaying the step calls. -/
theorem optimizeLoop_shape {S E V M P : Type} (eng : DriverEngine S E V M)
    (pol : P → S → E → Bool × P) :
    ∀ (fuel : Nat) (σ : S) (p : P) (i : Nat) (tr : List (DrvEvent E)) (ef : E)
      (σf : S), optimizeLoop eng pol fuel σ p i = some (tr, ef, σf) →
      ∃ es : List E, es ≠ [] ∧ tr = loopTrace i es ∧ es.getLast? = some ef ∧
        σf = replaySteps eng σ (List.range' i es.length)
  | 0, σ, p, i, tr, ef, σf, h => by simp [optimizeLoop] at h
  | fuel + 1, σ, p, i, tr, ef, σf, h => by
      simp only [optimizeLoop] at h
      by_cases hq : (pol p (eng.step σ i).2 (eng.step σ i).1).1 = true
      · rw [if_pos hq] at h
        simp only [Option.some.injEq, Prod.mk.injEq] at h
        obtain ⟨h1, h2, h3⟩ := h
        subst h1; subst h2; subst h3
        refine ⟨[(eng.step σ i).1], by simp, by simp [loopTrace], rfl, ?_⟩
        simp [replaySteps, List.range'_one]
      · rw [if_neg hq] at h
        cases hrec : optimizeLoop eng pol fuel (eng.step σ i).2
            (pol p (eng.step σ i).2 (eng.step σ i).1).2 (i + 1) with
        | none => rw [hrec] at h; cases h
        | some res =>
            obtain ⟨tr', ef', σf'⟩ := res
            rw [hrec] at h
            simp only [Option.some.injEq, Prod.mk.injEq] at h
            obtain ⟨h1, h2, h3⟩ := h
            subst h1; subst h2; subst h3
            obtain ⟨es, hne, htr, hlast, hσ⟩ :=
              optimizeLoop_shape eng pol fuel _ _ _ _ _ _ hrec
            refine ⟨(eng.step σ i).1 :: es, by simp, ?_, ?_, ?_⟩
            · have hemp : es.isEmpty = false := by
                cases es with
                | nil => exact absurd rfl hne
                | cons a l => rfl
              subst htr
              simp [loopTrace, hemp]
            · rw [getLast?_cons_of_ne _ es hne]; exact hlast
            · rw [hσ]
              simp [List.length_cons, List.range'_succ, replaySteps]

theorem polResults_append_getMei {E : Type} (tr : List (DrvEvent E)) :
    polResults (tr ++ [DrvEvent.getMeiCall]) = polResults tr := by
  simp [polResults]

theorem stepIndices_append_getMei {E : Type} (tr : List (DrvEvent E)) :
    stepIndices (tr ++ [DrvEvent.getMeiCall]) = stepIndices tr := by
  simp [stepIndices]

theorem stepEvals_append_getMei {E : Type} (tr : List (DrvEvent E)) :
    stepEvals (tr ++ [DrvEvent.getMeiCall]) = stepEvals tr := by
  simp [stepEvals]

/-- Concrete engine used to exercise the driver theorems on a closed run: the
engine state counts the steps taken, `step` returns `10 + i` as the
evaluation, `item` is the identity and `get_mei` reads `100 *` the state. -/
def testEngine : DriverEngine Nat Nat Nat Nat where
  step := fun σ i => (10 + i, σ + 1)
  item := fun e => e
  get_mei := fun σ => 100 * σ

/-- Concrete stopping policy for closed runs: a fresh `NumIterations(1)`
Iteration-Count Policy. -/
def testPolicy (p : Nat) (σ : Nat) (e : Nat) : Bool × Nat :=
  NumIterations.call 1 p σ e

/-- Trace produced by `optimize testEngine testPolicy 3 0 0`. -/
def testTrace : List (DrvEvent Nat) :=
  [DrvEvent.stepCall 0 10, DrvEvent.polCall 10 false,
   DrvEvent.stepCall 1 11, DrvEvent.polCall 11 true, DrvEvent.getMeiCall]

/-- C1: whenever `optimize` completes, writing `k` for the number of times the
stopping policy returned false before its first true (read off the run's
trace): `engine.step` was invoked exactly `k+1` times, at strictly increasing
iteration indices `0, 1, …, k`; the stopping policy was invoked exactly `k+1`
times, returning false `k` times and then true; and the trace is
`loopTrace 0 es` for the `k+1` step evaluations `es` followed by the final
`get_mei` call — so the policy was consulted exactly once immediately after
each completed step and never before the first step. -/
theorem optimize_step_and_policy_call_pattern {S E V M P : Type}
    (eng : DriverEngine S E V M) (pol : P → S → E → Bool × P) (fuel : Nat)
    (σ₀ : S) (p₀ : P) (tr : List (DrvEvent E)) (v : V) (m : M)
    (h : optimize eng pol fuel σ₀ p₀ = some (tr, v, m)) :
    stepIndices tr = List.range ((polResults tr).count false + 1) ∧
    (polResults tr).length = (polResults tr).count false + 1 ∧
    polResults tr = List.replicate ((polResults tr).count false) false ++ [true] ∧
    ∃ es : List E, es.length = (polResults tr).count false + 1 ∧
      tr = loopTrace 0 es ++ [DrvEvent.getMeiCall] := by
  simp only [optimize] at h
  split at h
  · exact absurd h (by simp)
  · next tr' ef σf heq =>
      obtain ⟨es, hne, htr', hlast, hσ⟩ :=
        optimizeLoop_shape eng pol fuel σ₀ p₀ 0 tr' ef σf heq
      simp only [Option.some.injEq, Prod.mk.injEq] at h
      obtain ⟨h1, h2, h3⟩ := h
      subst h1
      subst htr'
      have hnpos : 0 < es.length := List.length_pos.mpr hne
      have hn : es.length - 1 + 1 = es.length := Nat.succ_pred_eq_of_pos hnpos
      have hcount :
          (polResults (loopTrace 0 es ++ [DrvEvent.getMeiCall])).count false =
            es.length - 1 := by
        rw [polResults_append_getMei, polResults_loopTrace es 0 hne]
        simp
      refine ⟨?_, ?_, ?_, es, ?_, rfl⟩
      · rw [stepIndices_append_getMei, stepIndices_loopTrace es 0, hcount, hn,
          List.range_eq_range']
      · rw [polResults_append_getMei, polResults_loopTrace es 0 hne]
        simp
      · rw [hcount, polResults_append_getMei, polResults_loopTrace es 0 hne]
      · rw [hcount, hn]

theorem optimize_step_and_policy_call_pattern_witness :
    stepIndices testTrace = List.range ((polResults testTrace).count false + 1) ∧
    (polResults testTrace).length = (polResults testTrace).count false + 1 ∧
    polResults testTrace =
      List.replicate ((polResults testTrace).count false) false ++ [true] ∧
    ∃ es : List Nat, es.length = (polResults testTrace).count false + 1 ∧
      testTrace = loopTrace 0 es ++ [DrvEvent.getMeiCall] :=
  optimize_step_and_policy_call_pattern testEngine testPolicy 3 0 0 testTrace
    11 200 (by decide)

/-- C4: whenever `optimize` completes, `engine.get_mei` was called exactly
once, as the very last external call of the run (so only after the loop had
exited); the first component of the returned pair is `engine.item` applied to
the final step's evaluation, and the second component is the value
`engine.get_mei` returns on the engine state reached after the last step. -/
theorem optimize_returns_item_and_get_mei {S E V M P : Type}
    (eng : DriverEngine S E V M) (pol : P → S → E → Bool × P) (fuel : Nat)
    (σ₀ : S) (p₀ : P) (tr : List (DrvEvent E)) (v : V) (m : M)
    (h : optimize eng pol fuel σ₀ p₀ = some (tr, v, m)) :
    numGetMeiCalls tr = 1 ∧
    tr.getLast? = some DrvEvent.getMeiCall ∧
    (∃ e : E, (stepEvals tr).getLast? = some e ∧ v = eng.item e) ∧
    m = eng.get_mei (replaySteps eng σ₀ (stepIndices tr)) := by
  simp only [optimize] at h
  split at h
  · exact absurd h (by simp)
  · next tr' ef σf heq =>
      obtain ⟨es, hne, htr', hlast, hσ⟩ :=
        optimizeLoop_shape eng pol fuel σ₀ p₀ 0 tr' ef σf heq
      simp only [Option.some.injEq, Prod.mk.injEq] at h
      obtain ⟨h1, h2, h3⟩ := h
      subst h1
      subst htr'
      refine ⟨?_, ?_, ⟨ef, ?_, h2.symm⟩, ?_⟩
      · simp [numGetMeiCalls, List.countP_append] at *
        simpa [numGetMeiCalls] using numGetMeiCalls_loopTrace es 0
      · exact List.getLast?_concat _
      · rw [stepEvals_append_getMei, stepEvals_loopTrace es 0]; exact hlast
      · rw [stepIndices_append_getMei, stepIndices_loopTrace es 0, ← hσ, h3]

theorem optimize_returns_item_and_get_mei_witness :
    numGetMeiCalls testTrace = 1 ∧
    testTrace.getLast? = some DrvEvent.getMeiCall ∧
    (∃ e : Nat, (stepEvals testTrace).getLast? = some e ∧ 11 = testEngine.item e) ∧
    200 = testEngine.get_mei (replaySteps testEngine 0 (stepIndices testTrace)) :=
  optimize_returns_item_and_get_mei testEngine testPolicy 3 0 0 testTrace
    11 200 (by decide)

/-! ## Optimization step engine (`featurevis/optimization.py`, modelled from the spec)

The `MEI` class owns the candidate, the scoring function, the optimizer and
the transform.  The candidate, evaluations and the collaborators (scoring
function, optimizer update, negation, `detach`/`squeeze`/`cpu`) are opaque in
the code and are modelled as pure function parameters; every call the engine
makes on a collaborator is recorded, with its argument, in an event trace. -/

/-- Events recorded by the step engine: each call it makes on the candidate,
the optimizer, the transform, the scoring function or an evaluation, with the
argument it passed. -/
inductive MEIEvent (C E : Type) where
  | requiresGradCall (x : C)
  | zeroGradCall
  | transformCall (x : C) (i_iteration : Nat)
  | funcCall (x : C)
  | negCall (evaluation : E)
  | backwardCall (evaluation : E)
  | optStepCall
  | detachCall (x : C)
  | squeezeCall (x : C)
  | cpuCall (x : C)
deriving DecidableEq, Repr

/-- Opaque tensor- and optimizer-level operations the engine triggers but does
not implement: negation of an evaluation, the optimizer's in-place update of
the candidate, and the `detach`, `squeeze` and `cpu` conversions on the
candidate. -/
structure MEIOps (C E : Type) where
  negE : E → E
  optStep : C → C
  detach : C → C
  squeeze : C → C
  cpu : C → C

/-- State of the step engine: the scoring function, the candidate (the class
stores it in the attribute `initial_guess` and the optimizer mutates it in
place), and the transform. -/
structure MEI (C E : Type) where
  func : C → E
  initial_guess : C
  transform : C → Nat → C

/-- Modelled from the spec: `featurevis/optimization.py` is not among the
sources.  Per spec §4.1, the constructor `MEI(func, initial_guess, optimizer,
transform=None)` stores its arguments, defaults the transform to the identity
on the candidate (ignoring the iteration index) when none is supplied, and as
its side effect marks the candidate as requiring gradient tracking; that call
on the candidate is the recorded event. -/
def MEI.make {C E : Type} (func : C → E) (initial_guess : C)
    (transform : Option (C → Nat → C)) : MEI C E × List (MEIEvent C E) :=
  ({ func := func, initial_guess := initial_guess,
     transform := transform.getD fun x _ => x },
   [MEIEvent.requiresGradCall initial_guess])

/-- Modelled from the spec: per spec §4.1, `step(i)` clears the optimizer's
accumulated gradients, applies the transform to the candidate passing `i` as
the named argument `i_iteration`, invokes the scoring function on the
transformed candidate, negates the evaluation, triggers one backward gradient
pass on the negated value, triggers one optimizer update (which mutates the
candidate), and returns the non-negated evaluation.  Each external call
appends one event to the trace, in program order. -/
def MEI.step {C E : Type} (ops : MEIOps C E) (m : MEI C E) (i : Nat) :
    E × MEI C E × List (MEIEvent C E) :=
  let tr₀ : List (MEIEvent C E) := [MEIEvent.zeroGradCall]
  let transformed := m.transform m.initial_guess i
  let tr₁ := tr₀ ++ [MEIEvent.transformCall m.initial_guess i]
  let evaluation := m.func transformed
  let tr₂ := tr₁ ++ [MEIEvent.funcCall transformed]
  let negated := ops.negE evaluation
  let tr₃ := tr₂ ++ [MEIEvent.negCall evaluation]
  let tr₄ := tr₃ ++ [MEIEvent.backwardCall negated]
  let updated := ops.optStep m.initial_guess
  let tr₅ := tr₄ ++ [MEIEvent.optStepCall]
  (evaluation, { m with initial_guess := updated }, tr₅)

/-- Modelled from the spec: per spec §4.1, `get_mei()` returns
`initial_guess.detach().squeeze().cpu()` — the candidate detached from the
differentiation graph, then with its singleton batch dimension squeezed away,
then moved to host memory — without changing the engine state.  Each of the
three conversions appends one event, with its argument, to the trace. -/
def MEI.get_mei {C E : Type} (ops : MEIOps C E) (m : MEI C E) :
    C × List (MEIEvent C E) :=
  let detached := ops.detach m.initial_guess
  let tr₀ : List (MEIEvent C E) := [MEIEvent.detachCall m.initial_guess]
  let squeezed := ops.squeeze detached
  let tr₁ := tr₀ ++ [MEIEvent.squeezeCall detached]
  let hosted := ops.cpu squeezed
  let tr₂ := tr₁ ++ [MEIEvent.cpuCall squeezed]
  (hosted, tr₂)

/-- C3: `step(i)` returns the non-negated evaluation of the transformed
candidate, and its external calls are, in exactly this order: one clearing of
the optimizer's gradients, one transform call on the candidate with `i` as
`i_iteration`, one scoring-function call on the transformed candidate, one
negation of the resulting evaluation, one backward pass on the negated value,
and one optimizer update. -/
theorem mei_step_call_order {C E : Type} (ops : MEIOps C E) (m : MEI C E)
    (i : Nat) :
    (MEI.step ops m i).1 = m.func (m.transform m.initial_guess i) ∧
    (MEI.step ops m i).2.2 =
      [MEIEvent.zeroGradCall,
       MEIEvent.transformCall m.initial_guess i,
       MEIEvent.funcCall (m.transform m.initial_guess i),
       MEIEvent.negCall (m.func (m.transform m.initial_guess i)),
       MEIEvent.backwardCall (ops.negE (m.func (m.transform m.initial_guess i))),
       MEIEvent.optStepCall] := by
  constructor
  · rfl
  · simp [MEI.step]

/-- C5: `get_mei()` returns `cpu (squeeze (detach candidate))`, and its
external calls are exactly one `detach` of the candidate, then one `squeeze`
of the detached value, then one `cpu` conversion of the squeezed value, in
that order. -/
theorem mei_get_mei_detach_squeeze_cpu {C E : Type} (ops : MEIOps C E)
    (m : MEI C E) :
    (MEI.get_mei ops m).1 = ops.cpu (ops.squeeze (ops.detach m.initial_guess)) ∧
    (MEI.get_mei ops m).2 =
      [MEIEvent.detachCall m.initial_guess,
       MEIEvent.squeezeCall (ops.detach m.initial_guess),
       MEIEvent.cpuCall (ops.squeeze (ops.detach m.initial_guess))] := by
  constructor
  · rfl
  · simp [MEI.get_mei]

/-- C6: when the engine is constructed without a transform, the stored
transform is the identity on the candidate: it returns its first argument
unchanged for every value and every iteration index. -/
theorem mei_default_transform_identity {C E : Type} (func : C → E)
    (initial_guess : C) (x : C) (i : Nat) :
    ((MEI.make func initial_guess none).1).transform x i = x := rfl

/-- C7: constructing the engine performs exactly one external call: enabling
gradient tracking on the caller-supplied initial guess — whether or not a
transform is supplied. -/
theorem mei_make_requires_grad_once {C E : Type} (func : C → E)
    (initial_guess : C) (transform : Option (C → Nat → C)) :
    (MEI.make func initial_guess transform).2 =
      [MEIEvent.requiresGradCall initial_guess] := rfl

/-! ## Integration helpers (`featurevis/integration.py`)

These definitions are embedded directly from the source file.  Python dicts
are modelled as insertion-ordered association lists; the external `make_hash`
utility and the model table are opaque function parameters. -/

/-- Update of a Python dict modelled as an insertion-ordered association
list: `d[k] = v` replaces the value of an existing key in place and appends a
new binding at the end otherwise. -/
def updAssoc {κ ν : Type} [DecidableEq κ] (k : κ) (v : ν) :
    List (κ × ν) → List (κ × ν)
  | [] => [(k, v)]
  | (k', v') :: rest =>
      if k' = k then (k, v) :: rest else (k', v') :: updAssoc k v rest

/-- Lookup `d[k]` in a Python dict modelled as an association list: the value
of the first (and, for a dict, only) binding of `k`. -/
def lookupA {κ ν : Type} [DecidableEq κ] (k : κ) : List (κ × ν) → Option ν
  | [] => none
  | (k', v') :: rest => if k' = k then some v' else lookupA k rest

/-- Deletion `del d[k]` in a Python dict modelled as an association list:
removes the first binding of `k`. -/
def delAssoc {κ ν : Type} [DecidableEq κ] (k : κ) : List (κ × ν) → List (κ × ν)
  | [] => []
  | (k', v') :: rest => if k' = k then rest else (k', v') :: delAssoc k rest

/-- Embedding of `integration.ModelLoader`.  The external model table is
abstracted to the two composite operations the loader performs with it:
`load_model` models `self.model_table().load_model(key=key)` and `hash_key`
models `self._hash_trained_model_key(key)`, the `make_hash` of the
primary-key part of the key.  `cache` is the Python dict `self.cache`. -/
structure ModelLoader (K H M : Type) where
  load_model : K → M
  hash_key : K → H
  cache_size_limit : Nat
  cache : List (H × M)

namespace ModelLoader

variable {K H M : Type} [DecidableEq H]

/-- `ModelLoader._is_cached`: whether the hash of the key is in the cache. -/
def is_cached (L : ModelLoader K H M) (key : K) : Bool :=
  (lookupA (L.hash_key key) L.cache).isSome

/-- `ModelLoader._cache_model`: stores the loaded model under the key's hash
and, if the cache is then bigger than the size limit, deletes the entry whose
key is first in the dict's insertion order (`del self.cache[list(self.cache)[0]]`;
the empty-cache case of that expression would raise and is unreachable, since
an over-full cache is nonempty). -/
def cache_model (L : ModelLoader K H M) (key : K) : ModelLoader K H M :=
  let cache' := updAssoc (L.hash_key key) (L.load_model key) L.cache
  if cache'.length > L.cache_size_limit then
    match cache' with
    | [] => { L with cache := [] }
    | (k₀, v₀) :: rest => { L with cache := delAssoc k₀ ((k₀, v₀) :: rest) }
  else { L with cache := cache' }

/-- `ModelLoader.load`: with a cache-size limit of 0 the cache is bypassed
entirely and the model is loaded fresh; otherwise the model is cached first
when missing and then read from the cache (`none` models the unreachable
`KeyError` of `_get_cached_model`). -/
def load (L : ModelLoader K H M) (key : K) : Option M × ModelLoader K H M :=
  if L.cache_size_limit = 0 then (some (L.load_model key), L)
  else
    let L' := if L.is_cached key then L else L.cache_model key
    (lookupA (L'.hash_key key) L'.cache, L')

/-- `ModelLoader.__init__`: a fresh loader with an empty cache. -/
def init (load_model : K → M) (hash_key : K → H) (cache_size_limit : Nat) :
    ModelLoader K H M :=
  { load_model := load_model, hash_key := hash_key,
    cache_size_limit := cache_size_limit, cache := [] }

/-- Folds a sequence of `load` calls, keeping the evolving loader. -/
def loadAll (L : ModelLoader K H M) (keys : List K) : ModelLoader K H M :=
  keys.foldl (fun L k => (L.load k).2) L

end ModelLoader

theorem length_updAssoc_le {κ ν : Type} [DecidableEq κ] (k : κ) (v : ν) :
    ∀ m : List (κ × ν), (updAssoc k v m).length ≤ m.length + 1
  | [] => by simp [updAssoc]
  | (k', v') :: rest => by
      by_cases h : k' = k
      · simp [updAssoc, h]
      · simpa [updAssoc, h, Nat.succ_le_succ_iff] using
          length_updAssoc_le k v rest

theorem modelLoader_load_fields {K H M : Type} [DecidableEq H]
    (L : ModelLoader K H M) (key : K) :
    ((L.load key).2).cache_size_limit = L.cache_size_limit ∧
    ((L.load key).2).load_model = L.load_model ∧
    ((L.load key).2).hash_key = L.hash_key := by
  unfold ModelLoader.load ModelLoader.cache_model
  split
  · exact ⟨rfl, rfl, rfl⟩
  · dsimp only
    split
    · exact ⟨rfl, rfl, rfl⟩
    · split
      · split <;> exact ⟨rfl, rfl, rfl⟩
      · exact ⟨rfl, rfl, rfl⟩

theorem modelLoader_load_cache_le {K H M : Type} [DecidableEq H]
    (L : ModelLoader K H M) (key : K)
    (h : L.cache.length ≤ L.cache_size_limit) :
    ((L.load key).2).cache.length ≤ L.cache_size_limit := by
  unfold ModelLoader.load ModelLoader.cache_model
  split
  · exact h
  · dsimp only
    split
    · exact h
    · have hupd := length_updAssoc_le (L.hash_key key) (L.load_model key) L.cache
      split
      · next hover =>
          split
          · simp
          · next k₀ v₀ rest heq =>
              have hd : delAssoc k₀ ((k₀, v₀) :: rest) = rest := by
                simp [delAssoc]
              simp only [hd]
              have hlen : ((k₀, v₀) :: rest).length ≤ L.cache.length + 1 := by
                rw [← heq]; exact hupd
              simp only [List.length_cons] at hlen
              show rest.length ≤ L.cache_size_limit
              omega
      · next hover =>
          show (updAssoc (L.hash_key key) (L.load_model key) L.cache).length ≤
            L.cache_size_limit
          exact Nat.le_of_not_lt hover

theorem modelLoader_load_limitZero {K H M : Type} [DecidableEq H]
    (L : ModelLoader K H M) (key : K) (h : L.cache_size_limit = 0) :
    (L.load key) = (some (L.load_model key), L) := by
  unfold ModelLoader.load
  rw [if_pos h]

theorem modelLoader_loadAll_invariant {K H M : Type} [DecidableEq H] :
    ∀ (keys : List K) (L : ModelLoader K H M),
      L.cache.length ≤ L.cache_size_limit →
      (L.loadAll keys).cache_size_limit = L.cache_size_limit ∧
      (L.loadAll keys).cache.length ≤ L.cache_size_limit
  | [], L, h => ⟨rfl, h⟩
  | key :: keys, L, h => by
      have hfields := modelLoader_load_fields L key
      have hstep := modelLoader_load_cache_le L key h
      have hrec := modelLoader_loadAll_invariant keys ((L.load key).2)
        (hfields.1 ▸ hstep)
      simp only [ModelLoader.loadAll, List.foldl_cons] at *
      exact ⟨hrec.1.trans hfields.1, hfields.1 ▸ hrec.2⟩

theorem modelLoader_loadAll_limitZero {K H M : Type} [DecidableEq H] :
    ∀ (keys : List K) (L : ModelLoader K H M), L.cache_size_limit = 0 →
      L.loadAll keys = L
  | [], _, _ => rfl
  | key :: keys, L, h => by
      have hstep := modelLoader_load_limitZero L key h
      simp only [ModelLoader.loadAll, List.foldl_cons, hstep]
      exact modelLoader_loadAll_limitZero keys L h

/-- C8: a `ModelLoader` constructed with cache-size limit `c` never holds more
than `c` cache entries after any sequence of `load` calls; with `c = 0` the
cache stays empty and every call bypasses it, returning the freshly loaded
model and leaving the loader unchanged. -/
theorem modelLoader_cache_never_exceeds_limit {K H M : Type} [DecidableEq H]
    (load_model : K → M) (hash_key : K → H) (c : Nat) (keys : List K)
    (key : K) :
    ((ModelLoader.init load_model hash_key c).loadAll keys).cache.length ≤ c ∧
    ((ModelLoader.init load_model hash_key 0).loadAll keys).cache = [] ∧
    ((ModelLoader.init load_model hash_key 0).loadAll keys).load key =
      (some (load_model key), (ModelLoader.init load_model hash_key 0).loadAll keys) := by
  refine ⟨(modelLoader_loadAll_invariant keys _ (by simp [ModelLoader.init])).2, ?_, ?_⟩
  · rw [modelLoader_loadAll_limitZero keys _ rfl]
    rfl
  · rw [modelLoader_loadAll_limitZero keys _ rfl]
    exact modelLoader_load_limitZero _ key rfl

/-- Embedding of the dict comprehension `{make_hash(d): d for d in
list_of_dicts}` from `hash_list_of_dictionaries`: a Python dict from entry
hashes to entries, built left to right, a later entry with the same hash
overwriting the earlier one in place. -/
def dictOfDicts {D : Type} (hashD : D → String) (list_of_dicts : List D) :
    List (String × D) :=
  list_of_dicts.foldl (fun m d => updAssoc (hashD d) d m) []

/-- Embedding of `integration.hash_list_of_dictionaries`.  The external
`make_hash` utility is opaque and split into its two uses: `hashD` hashes a
single dictionary, `hashL` hashes a list of dictionaries.  The function
builds `dict_of_dicts`, iterates over its keys in sorted order
(`sorted(dict_of_dicts)`), reads the entries back in that order and hashes
the resulting list. -/
def hash_list_of_dictionaries {D : Type} (hashD : D → String)
    (hashL : List D → String) (list_of_dicts : List D) : String :=
  let dict_of_dicts := dictOfDicts hashD list_of_dicts
  let sorted_hashes := (dict_of_dicts.map Prod.fst).insertionSort (· ≤ ·)
  hashL (sorted_hashes.filterMap fun h => lookupA h dict_of_dicts)

theorem lookupA_updAssoc {κ ν : Type} [DecidableEq κ] (k k' : κ) (v : ν) :
    ∀ m : List (κ × ν),
      lookupA k (updAssoc k' v m) = if k' = k then some v else lookupA k m
  | [] => by
      by_cases h : k' = k <;> simp [updAssoc, lookupA, h]
  | (k₀, v₀) :: rest => by
      by_cases h0 : k₀ = k'
      · subst h0
        by_cases h : k₀ = k <;> simp [updAssoc, lookupA, h]
      · have ih := lookupA_updAssoc k k' v rest
        by_cases h1 : k₀ = k
        · subst h1
          have : ¬k' = k₀ := fun hc => h0 hc.symm
          simp [updAssoc, lookupA, h0, this]
        · by_cases h : k' = k
          · rw [h] at ih
            simp [updAssoc, lookupA, h0, h1, h, ih]
          · simp [updAssoc, lookupA, h0, h1, h, ih]

theorem getLast?_cons_or {α : Type} (a : α) :
    ∀ l : List α, (a :: l).getLast? = l.getLast?.or (some a)
  | [] => rfl
  | b :: t => by
      rw [List.getLast?_cons_cons, getLast?_cons_or b t]
      cases t.getLast? <;> rfl

theorem mem_of_getLast?_eq {α : Type} {l : List α} {a : α}
    (h : l.getLast? = some a) : a ∈ l := by
  obtain ⟨hne, rfl⟩ := List.mem_getLast?_eq_getLast (show a ∈ l.getLast? from h)
  exact List.getLast_mem hne

theorem lookupA_foldl_updAssoc {D : Type} (hashD : D → String) (k : String) :
    ∀ (l : List D) (m : List (String × D)),
      lookupA k (l.foldl (fun m d => updAssoc (hashD d) d m) m) =
        ((l.filter fun d => hashD d = k).getLast?).or (lookupA k m)
  | [], m => by simp
  | d :: l, m => by
      simp only [List.foldl_cons]
      rw [lookupA_foldl_updAssoc hashD k l (updAssoc (hashD d) d m),
        lookupA_updAssoc k (hashD d) d m]
      by_cases h : hashD d = k
      · have hfilter : List.filter (fun d => decide (hashD d = k)) (d :: l) =
            d :: List.filter (fun d => decide (hashD d = k)) l := by
          simp [List.filter_cons, h]
        rw [if_pos h, hfilter, getLast?_cons_or, Option.or_assoc]
        cases lookupA k m <;> rfl
      · have hfilter : List.filter (fun d => decide (hashD d = k)) (d :: l) =
            List.filter (fun d => decide (hashD d = k)) l := by
          simp [List.filter_cons, h]
        rw [if_neg h, hfilter]

theorem lookupA_dictOfDicts {D : Type} (hashD : D → String) (k : String)
    (l : List D) :
    lookupA k (dictOfDicts hashD l) = (l.filter fun d => hashD d = k).getLast? := by
  rw [dictOfDicts, lookupA_foldl_updAssoc]
  simp [lookupA]

theorem lookupA_isSome_iff {κ ν : Type} [DecidableEq κ] (k : κ) :
    ∀ m : List (κ × ν), (lookupA k m).isSome = true ↔ k ∈ m.map Prod.fst
  | [] => by simp [lookupA]
  | (k₀, v₀) :: rest => by
      by_cases h : k₀ = k
      · subst h; simp [lookupA]
      · have : ¬k = k₀ := fun hc => h hc.symm
        simp [lookupA, h, this, lookupA_isSome_iff k rest]

theorem map_fst_updAssoc {κ ν : Type} [DecidableEq κ] (k : κ) (v : ν) :
    ∀ m : List (κ × ν), (updAssoc k v m).map Prod.fst =
      if k ∈ m.map Prod.fst then m.map Prod.fst else m.map Prod.fst ++ [k]
  | [] => by simp [updAssoc]
  | (k₀, v₀) :: rest => by
      by_cases h : k₀ = k
      · subst h; simp [updAssoc]
      · have ih := map_fst_updAssoc k v rest
        have hne : ¬k = k₀ := fun hc => h hc.symm
        by_cases hm : k ∈ rest.map Prod.fst <;>
          simp [updAssoc, h, hne, hm, ih]

theorem nodup_map_fst_updAssoc {κ ν : Type} [DecidableEq κ] (k : κ) (v : ν)
    (m : List (κ × ν)) (h : (m.map Prod.fst).Nodup) :
    ((updAssoc k v m).map Prod.fst).Nodup := by
  rw [map_fst_updAssoc]
  split
  · exact h
  · next hnm =>
      have hcons : (k :: m.map Prod.fst).Nodup := List.nodup_cons.mpr ⟨hnm, h⟩
      exact ((List.perm_append_singleton k _).nodup_iff).mpr hcons

theorem nodup_map_fst_dictOfDicts {D : Type} (hashD : D → String)
    (l : List D) : ((dictOfDicts hashD l).map Prod.fst).Nodup := by
  rw [dictOfDicts]
  suffices h : ∀ (l : List D) (m : List (String × D)), (m.map Prod.fst).Nodup →
      ((l.foldl (fun m d => updAssoc (hashD d) d m) m).map Prod.fst).Nodup by
    exact h l [] (by simp)
  intro l
  induction l with
  | nil => intro m hm; simpa using hm
  | cons d l ih =>
      intro m hm
      simp only [List.foldl_cons]
      exact ih _ (nodup_map_fst_updAssoc _ _ _ hm)

theorem getLast?_filter_eq_of_perm {α : Type} (p : α → Bool) (l₁ l₂ : List α)
    (hperm : l₁.Perm l₂)
    (huniq : ∀ x ∈ l₁.filter p, ∀ y ∈ l₁.filter p, x = y) :
    (l₁.filter p).getLast? = (l₂.filter p).getLast? := by
  have hfp : (l₁.filter p).Perm (l₂.filter p) := hperm.filter p
  cases h1 : (l₁.filter p).getLast? with
  | none =>
      have hnil₁ : l₁.filter p = [] := List.getLast?_eq_none_iff.mp h1
      rw [hnil₁] at hfp
      have hnil₂ : l₂.filter p = [] := hfp.symm.eq_nil
      rw [hnil₂]
      rfl
  | some x =>
      have hx : x ∈ l₁.filter p := mem_of_getLast?_eq h1
      have hne₂ : l₂.filter p ≠ [] := by
        intro hnil
        rw [hnil] at hfp
        rw [hfp.eq_nil] at hx
        exact absurd hx (List.not_mem_nil x)
      cases h2 : (l₂.filter p).getLast? with
      | none => exact absurd (List.getLast?_eq_none_iff.mp h2) hne₂
      | some y =>
          have hy : y ∈ l₁.filter p := hfp.mem_iff.mpr (mem_of_getLast?_eq h2)
          rw [huniq x hx y hy]

/-- C9: `hash_list_of_dictionaries` is invariant under permutation of its
input list, provided the per-entry hash has no collisions on the entries of
that list (the modelling assumption for the external cryptographic
`make_hash`): the entries are re-keyed by their individual hashes and read
back in sorted-key order before the final hash is taken, so any two
permutations of the same list hash to the same string. -/
theorem hash_list_of_dictionaries_perm_invariant {D : Type}
    (hashD : D → String) (hashL : List D → String) (l₁ l₂ : List D)
    (hinj : ∀ a ∈ l₁, ∀ b ∈ l₁, hashD a = hashD b → a = b)
    (hperm : l₁.Perm l₂) :
    hash_list_of_dictionaries hashD hashL l₁ =
      hash_list_of_dictionaries hashD hashL l₂ := by
  have hlook : ∀ k, lookupA k (dictOfDicts hashD l₁) =
      lookupA k (dictOfDicts hashD l₂) := by
    intro k
    rw [lookupA_dictOfDicts, lookupA_dictOfDicts]
    apply getLast?_filter_eq_of_perm _ _ _ hperm
    intro x hx y hy
    have hx' := List.mem_filter.mp hx
    have hy' := List.mem_filter.mp hy
    refine hinj x hx'.1 y hy'.1 ?_
    have hxk : hashD x = k := by simpa using hx'.2
    have hyk : hashD y = k := by simpa using hy'.2
    rw [hxk, hyk]
  have hkeys : ((dictOfDicts hashD l₁).map Prod.fst).Perm
      ((dictOfDicts hashD l₂).map Prod.fst) := by
    refine (List.perm_ext_iff_of_nodup (nodup_map_fst_dictOfDicts hashD l₁)
      (nodup_map_fst_dictOfDicts hashD l₂)).mpr ?_
    intro k
    rw [← lookupA_isSome_iff, ← lookupA_isSome_iff, hlook k]
  have hsorted : ((dictOfDicts hashD l₁).map Prod.fst).insertionSort (· ≤ ·) =
      ((dictOfDicts hashD l₂).map Prod.fst).insertionSort (· ≤ ·) := by
    refine List.eq_of_perm_of_sorted ?_ (List.sorted_insertionSort _ _)
      (List.sorted_insertionSort _ _)
    exact (List.perm_insertionSort _ _).trans
      (hkeys.trans (List.perm_insertionSort _ _).symm)
  simp only [hash_list_of_dictionaries]
  rw [hsorted]
  congr 1
  exact List.filterMap_congr fun k _ => hlook k

theorem hash_list_of_dictionaries_perm_invariant_witness :
    hash_list_of_dictionaries (fun n : Nat => toString n)
        (fun l : List Nat => toString l.length) [2, 1] =
      hash_list_of_dictionaries (fun n : Nat => toString n)
        (fun l : List Nat => toString l.length) [1, 2] :=
  hash_list_of_dictionaries_perm_invariant (fun n : Nat => toString n)
    (fun l : List Nat => toString l.length) [2, 1] [1, 2]
    (by decide) (List.Perm.swap 1 2 [])

/-- Embedding of the list comprehension `[m(x, *args, **kwargs) for m in
self.members]` from `EnsembleModel.__call__`.  Ensemble members are opaque
callables producing, for an input of type `α`, an output tensor modelled as a
list of rationals (one entry per output coordinate).  Besides the list of
outputs, one call event `(member index, argument)` is recorded per member
call, in order, starting at index `j`. -/
def runMembers {α : Type} : List (α → List ℚ) → α → Nat →
    List (List ℚ) × List (Nat × α)
  | [], _, _ => ([], [])
  | m :: rest, x, j =>
      let out := m x
      let r := runMembers rest x (j + 1)
      (out :: r.1, (j, x) :: r.2)

/-- Embedding of `torch.stack(outputs, dim=0).mean(dim=0)` for a list of
rows that all have the common length of the first row (the shape constraint
`torch.stack` enforces): the stacked tensor has shape `(k, n)` and its mean
over dimension 0 is the length-`n` vector of column means — for each column,
the sum of the rows' entries in that column divided by the number of rows. -/
def stackMeanDim0 (rows : List (List ℚ)) : List ℚ :=
  (List.range (rows.headD []).length).map fun j =>
    (rows.map fun r => r.getD j 0).sum / rows.length

/-- Embedding of `EnsembleModel.__call__`: the input is passed through all
individual members of the ensemble and their outputs, stacked along a new
member dimension, are averaged over that dimension; the result is returned
together with the recorded member calls. -/
def EnsembleModel.call {α : Type} (members : List (α → List ℚ)) (x : α) :
    List ℚ × List (Nat × α) :=
  let r := runMembers members x 0
  (stackMeanDim0 r.1, r.2)

theorem runMembers_fst {α : Type} (x : α) :
    ∀ (members : List (α → List ℚ)) (j : Nat),
      (runMembers members x j).1 = members.map fun m => m x
  | [], _ => rfl
  | m :: rest, j => by
      simp only [runMembers, List.map_cons]
      rw [runMembers_fst x rest (j + 1)]

theorem runMembers_snd {α : Type} (x : α) :
    ∀ (members : List (α → List ℚ)) (j : Nat),
      (runMembers members x j).2 =
        (List.range' j members.length).map fun i => (i, x)
  | [], _ => rfl
  | m :: rest, j => by
      simp only [runMembers, List.length_cons, List.range'_succ, List.map_cons]
      rw [runMembers_snd x rest (j + 1)]

/-- C10: calling the ensemble on an input invokes each member exactly once,
in member order, with that same input, and — when the members' outputs all
have the common length `n` required for stacking — returns the elementwise
mean of the member outputs: the vector whose `j`-th entry is the sum of the
members' `j`-th output entries divided by the number of members. -/
theorem ensembleModel_call_each_member_once_and_mean {α : Type}
    (members : List (α → List ℚ)) (x : α) (n : Nat) (hne : members ≠ [])
    (hlen : ∀ m ∈ members, (m x).length = n) :
    (EnsembleModel.call members x).2 =
      (List.range members.length).map (fun i => (i, x)) ∧
    (EnsembleModel.call members x).1 =
      (List.range n).map fun j =>
        (members.map fun m => (m x).getD j 0).sum / (members.length : ℚ) := by
  constructor
  · rw [List.range_eq_range']
    simp only [EnsembleModel.call]
    exact runMembers_snd x members 0
  · cases members with
    | nil => exact absurd rfl hne
    | cons m₀ rest =>
        have hhead :
            (((m₀ :: rest).map fun m => m x).headD []).length = n := by
          simpa using hlen m₀ (by simp)
        simp only [EnsembleModel.call, runMembers_fst, stackMeanDim0, hhead,
          List.map_map, List.length_map]
        rfl

/-- Concrete two-member ensemble exercising the ensemble theorem on a closed
input. -/
def testMembers : List (Unit → List ℚ) := [fun _ => [1, 2], fun _ => [3, 5]]

theorem ensembleModel_call_each_member_once_and_mean_witness :
    (EnsembleModel.call testMembers ()).2 =
      (List.range testMembers.length).map (fun i => (i, ())) ∧
    (EnsembleModel.call testMembers ()).1 =
      (List.range 2).map fun j =>
        (testMembers.map fun m => (m ()).getD j 0).sum /
          (testMembers.length : ℚ) :=
  ensembleModel_call_each_member_once_and_mean testMembers () 2
    (List.cons_ne_nil _ _)
    (by
      intro m hm
      simp only [testMembers, List.mem_cons, List.not_mem_nil, or_false] at hm
      rcases hm with rfl | rfl <;> rfl)

end Featurevis
